import Mathlib

/-!
Verification development for the interview-ai repository.

The definitions below are a shallow embedding of the Python sources:
`src/interview_ai/core/cache.py` (SimpleCache), `src/interview_ai/core/operators.py`
(graph node functions and the phase router), and
`src/interview_ai/clients/interview_client.py` (InterviewClient).

Modelling conventions:
* Python's `OrderedDict` is an association list, front = oldest (least recently
  used), back = most recently used.
* LangGraph's `interrupt(prompt)` suspension is modelled by making each node
  function take the resume value as an explicit argument and return the prompt
  it issued (if any) alongside its state update.
* Timestamps are integer numbers of seconds; `timedelta(minutes=m, seconds=5)`
  becomes `m * 60 + 5`.
* Fallible code (index errors, raised ValueError, failed lookups) returns
  `Option` / `Except`.
* The LLM engine behind `interviewbot.invoke` is an external collaborator; it
  is passed in as an oracle function, and the list of calls made to it is
  returned explicitly so that "without invoking the engine" is provable.
-/

namespace InterviewAI

/- ===================== core/cache.py ===================== -/

/-- Embedding of `SimpleCache` from `core/cache.py`: a bounded `OrderedDict`
keyed association list. `entries` is in recency order, oldest first. -/
structure SimpleCache (K V : Type) where
  entries : List (K × V)
  maxsize : Nat
deriving Repr, DecidableEq

variable {K V : Type} [DecidableEq K]

/-- Fresh cache, as built by `SimpleCache.__init__`. -/
def SimpleCache.empty (K V : Type) (maxsize : Nat) : SimpleCache K V :=
  ⟨[], maxsize⟩

/-- Keys of the cache in recency order (oldest first). -/
def SimpleCache.keys (c : SimpleCache K V) : List K :=
  c.entries.map Prod.fst

/-- Embedding of `SimpleCache.get`: on a miss return `None` with no side
effect; on a hit move the entry to the end (most recently used) and return
its value. -/
def SimpleCache.get (c : SimpleCache K V) (k : K) : Option V × SimpleCache K V :=
  match c.entries.find? (fun p => p.1 = k) with
  | none => (none, c)
  | some p =>
      (some p.2, ⟨c.entries.filter (fun q => q.1 ≠ k) ++ [(k, p.2)], c.maxsize⟩)

/-- Embedding of `SimpleCache.set`: insert or replace at the most-recently-used
end, then evict the oldest entry if the size exceeds `maxsize`. -/
def SimpleCache.set (c : SimpleCache K V) (k : K) (v : V) : SimpleCache K V :=
  let l := c.entries.filter (fun q => q.1 ≠ k) ++ [(k, v)]
  if c.maxsize < l.length then ⟨l.drop 1, c.maxsize⟩ else ⟨l, c.maxsize⟩

/-- One observable cache operation. -/
inductive CacheOp (K V : Type) where
  | get (k : K)
  | set (k : K) (v : V)

/-- Apply one operation to the cache (discarding `get`'s returned value). -/
def applyOp (c : SimpleCache K V) : CacheOp K V → SimpleCache K V
  | .get k => (SimpleCache.get c k).2
  | .set k v => SimpleCache.set c k v

/-- Run a sequence of operations from a given cache state. -/
def runOps (c : SimpleCache K V) (ops : List (CacheOp K V)) : SimpleCache K V :=
  ops.foldl applyOp c

/-- Last `n` elements of a list (the `n` most recent entries of a
chronological list). -/
def lastN (n : Nat) (l : List α) : List α :=
  l.drop (l.length - n)

/-- Spec-side ghost state for the LRU law: the chronological list of distinct
touched keys, most recent last. A `set` always touches its key; a `get`
touches its key exactly when the key is among the `N` most recently touched
(i.e. when the spec says it is still present). This definition follows the
spec's words ("the N most-recently-touched ids"), to be compared with the
`SimpleCache` implementation. -/
def touchStep (N : Nat) (g : List K) : CacheOp K V → List K
  | .set k _ => g.filter (fun x => x ≠ k) ++ [k]
  | .get k => if k ∈ lastN N g then g.filter (fun x => x ≠ k) ++ [k] else g

/-- Chronological distinct-touch list after a sequence of operations, starting
from no touches. -/
def touchTrace (N : Nat) (ops : List (CacheOp K V)) : List K :=
  ops.foldl (touchStep N) []

/-- Concrete operation sequence used to exercise the LRU law. -/
def sampleOps : List (CacheOp Nat Nat) :=
  [.set 1 10, .set 2 20, .get 1, .set 3 30]


/- ===================== core/operators.py ===================== -/

/-- Structured question record (`QuestionsItemSchema` in `core/schemas.py`). -/
structure QuestionItem where
  question : String
  qtype : String
  companies : String
deriving Repr, DecidableEq

/-- One collected answer: the dict literal built in `answer_collection_function`. -/
structure AnswerItem where
  question : String
  answer : String
deriving Repr, DecidableEq

/-- Conversation message as far as the modelled nodes construct them. The
payload of a `HumanMessage(json.dumps(...))` is kept as the dumped value
itself (JSON serialisation is injective on these values, so which value was
dumped is what matters). -/
inductive Msg where
  | humanAnswers (answers : List AnswerItem)
  | humanInfo (name role companies : Option String)
deriving Repr, DecidableEq

/-- Candidate information dict: keys `name`, `role`, `companies`; a key absent
from the Python dict is `none`. -/
structure CandidateInfo where
  name : Option String
  role : Option String
  companies : Option String
deriving Repr, DecidableEq

/-- Result of one execution of `candidate_information_collection_function`:
the interrupt prompt issued (if the node suspended), and the returned state
update. -/
structure CandidateInfoResult where
  issued : Option String
  info : CandidateInfo
  phase : String
deriving Repr, DecidableEq

/-- Embedding of `candidate_information_collection_function`
(`core/operators.py` lines 23-43). `resume` is the value returned by the
`interrupt` call when the node is resumed. When `phase == "reporting"` the
function returns the state unchanged without suspending. -/
def candidate_information_collection_function (phase : String)
    (info : CandidateInfo) (resume : String) : CandidateInfoResult :=
  if phase = "reporting" then ⟨none, info, phase⟩
  else if info.name = none then
    ⟨some "Please enter your full name",
      { info with name := some resume }, "introduction"⟩
  else if info.role = none then
    ⟨some "Job role you want to interview for",
      { info with role := some resume }, "introduction"⟩
  else if info.companies = none then
    ⟨some "Please enter comma separated names of companies you prefer",
      { info with companies := some resume }, "execution"⟩
  else ⟨none, info, "introduction"⟩

/-- Result of one resumed execution of `answer_collection_function`: the
question used as the interrupt prompt, the messages appended to history, the
new `answers` value and the new `phase`. -/
structure AnswerCollectionResult where
  issued : QuestionItem
  newMessages : List Msg
  answers : List AnswerItem
  phase : String
deriving Repr, DecidableEq

/-- Embedding of `answer_collection_function` (`core/operators.py` lines
52-65). `resume` is the value the `interrupt(question)` call returns on
resume. `questions[len(answers)]` raises `IndexError` when
`len(answers) >= len(questions)`, modelled as `none`. -/
def answer_collection_function (questions : List QuestionItem)
    (answers : List AnswerItem) (resume : String) :
    Option AnswerCollectionResult :=
  if h : answers.length < questions.length then
    if answers.length + 1 < questions.length then
      some ⟨questions.get ⟨answers.length, h⟩, [],
        answers ++ [⟨(questions.get ⟨answers.length, h⟩).question, resume⟩],
        "q&a"⟩
    else
      some ⟨questions.get ⟨answers.length, h⟩, [Msg.humanAnswers answers],
        answers ++ [⟨(questions.get ⟨answers.length, h⟩).question, resume⟩],
        "evaluation"⟩
  else none

/-- Embedding of `phase_router_function` (`core/operators.py` lines 89-94).
`state.get("phase")` on a state without the key yields `None`, hence the
`Option String` argument. -/
def phase_router_function (phase : Option String) : String :=
  if phase = some "reporting" then "reporting_node"
  else if phase = some "introduction" then "candidate_information_collection_node"
  else if phase = some "q&a" then "answer_collection_node"
  else if phase = some "evaluation" then "evaluation_node"
  else "perception_node"

/- ===================== clients/interview_client.py ===================== -/

/-- Discriminator of the cached `last_message` (`"interrupt"` or `"text"`). -/
inductive LastMessageType where
  | interrupt
  | text
deriving Repr, DecidableEq

/-- Cache entry written by `InterviewClient` (`cached_data` dicts): last
message text and type, `last_updated` timestamp (seconds), and `count`. -/
structure CachedData where
  lastMessageText : String
  lastMessageType : LastMessageType
  lastUpdated : Int
  count : Nat
deriving Repr, DecidableEq

/-- Interview rules dict, as read by `InterviewClient`: `time_frame` in
minutes and `no_of_questions`; an absent key is `none`. -/
structure InterviewRules where
  timeFrame : Option Int
  noOfQuestions : Option Nat
deriving Repr, DecidableEq

/-- Embedding of `InterviewClient.__init__` lines 14-16: the turn ceiling is
`rules.get("no_of_questions", 10) + settings.max_intro_questions`. -/
def maxQuestionsOf (rules : InterviewRules) (maxIntroQuestions : Nat) : Nat :=
  rules.noOfQuestions.getD 10 + maxIntroQuestions

/-- Embedding of `InterviewClient._check_answer_expiry` (lines 18-23): the
supplied message is discarded (replaced by `""`) exactly when `last_updated`
is strictly before `now - (time_frame * 60 + 5)` seconds, with
`time_frame = rules.get("time_frame", 0)`. -/
def check_answer_expiry (rules : InterviewRules) (now : Int)
    (userMessage : String) (lastUpdated : Int) : String :=
  if lastUpdated < now - (rules.timeFrame.getD 0 * 60 + 5) then ""
  else userMessage

/-- One call made to the workflow engine (`interviewbot.invoke`). -/
inductive EngineCall where
  | resume (value : String)
  | invoke (userMessage : String)
deriving Repr, DecidableEq

/-- What an engine invocation yields, as far as `next` inspects it: either a
response with `__interrupt__` (carrying the interrupt value) or a response
whose last message carries text. -/
inductive EngineResponse where
  | interruptResp (value : String)
  | textResp (text : String)
deriving Repr, DecidableEq

/-- Externally visible outcome of `InterviewClient.next`. -/
inductive NextOutcome where
  | endSentinel
  | message (text : String)
deriving Repr, DecidableEq

/-- Errors raised by the client layer. `valueErrorConfigRequired` is the
`ValueError("Interview config is required")` raised on a falsy
`interview_config`; `invalidSession` is the failure on an unknown session id
(the spec's InvalidSession kind). -/
inductive ClientError where
  | valueErrorConfigRequired
  | invalidSession
deriving Repr, DecidableEq

/-- Modelled from the spec: `load_cache` is imported from
`interview_ai/core/utilities.py`, which is not among the sources; per the
spec, loading the session state for an id that is absent or unknown fails
with InvalidSession, and otherwise yields the cached entry. `lookup` stands
for the cache/checkpoint lookup. -/
def load_cache (lookup : String → Option CachedData) (threadId : String) :
    Except ClientError CachedData :=
  match lookup threadId with
  | none => .error .invalidSession
  | some d => .ok d

/-- Embedding of `InterviewClient.start` (lines 25-48): runs the engine from
the entry node to its first interrupt and caches the snapshot with `count = 0`.
`interruptValue` is `response["__interrupt__"][0].value`. -/
def InterviewClient.start (now : Int) (interruptValue : String) : CachedData :=
  ⟨interruptValue, .interrupt, now, 0⟩

/-- Embedding of `InterviewClient.next` (lines 50-86). `config` is the thread
id carried by `interview_config` (`none` for a falsy config), `lookup` backs
the spec-modelled `load_cache`, and `engine` is the `interviewbot.invoke`
oracle. Returns the outcome, the cache entry written back (unchanged when the
call returns before reaching the engine), and the engine calls made. -/
def InterviewClient.next (rules : InterviewRules) (maxIntroQuestions : Nat)
    (now : Int) (config : Option String) (lookup : String → Option CachedData)
    (userMessage : String) (engine : EngineCall → EngineResponse) :
    Except ClientError (NextOutcome × CachedData × List EngineCall) :=
  match config with
  | none => .error .valueErrorConfigRequired
  | some threadId =>
    match load_cache lookup threadId with
    | .error e => .error e
    | .ok cached =>
      if maxQuestionsOf rules maxIntroQuestions ≤ cached.count then
        .ok (.endSentinel, cached, [])
      else
        let call : EngineCall :=
          if cached.lastMessageType = .interrupt then
            .resume (check_answer_expiry rules now userMessage cached.lastUpdated)
          else
            .invoke userMessage
        let response := engine call
        let newLast : String × LastMessageType :=
          match response with
          | .interruptResp v => (v, .interrupt)
          | .textResp t => (t, .text)
        let newCached : CachedData := ⟨newLast.1, newLast.2, now, cached.count + 1⟩
        if maxQuestionsOf rules maxIntroQuestions ≤ newCached.count then
          .ok (.endSentinel, newCached, [call])
        else
          .ok (.message newLast.1, newCached, [call])

/-- Embedding of `InterviewClient.end` (lines 88-116): fails on a falsy
config or unknown session, otherwise returns the response map whose
`"evaluation"` key holds the cached last message text; every branch of the
operations loop is `pass`, so `operationsMap` does not affect the result. -/
def InterviewClient.end (config : Option String)
    (lookup : String → Option CachedData) (operationsMap : List String) :
    Except ClientError String :=
  match config with
  | none => .error .valueErrorConfigRequired
  | some threadId =>
    match load_cache lookup threadId with
    | .error e => .error e
    | .ok cached =>
      let _ := operationsMap
      .ok cached.lastMessageText

/-- Per-call inputs of one `continue` call: the wall-clock instant, the
user's message and the engine oracle for that call. -/
structure CallInput where
  now : Int
  userMessage : String
  engine : EngineCall → EngineResponse

/-- Engine calls made by a `next` call (empty when the call failed or
returned before reaching the engine). -/
def engineCallsOf
    (r : Except ClientError (NextOutcome × CachedData × List EngineCall)) :
    List EngineCall :=
  match r with
  | .ok (_, _, calls) => calls
  | .error _ => []

/-- Cache entry after one `next` call on a session whose current cache entry
is `c` (unchanged when the call fails or returns before the engine). -/
def stepCache (rules : InterviewRules) (maxIntroQuestions : Nat) (cfg : String)
    (c : CachedData) (inp : CallInput) : CachedData :=
  match InterviewClient.next rules maxIntroQuestions inp.now (some cfg)
      (fun _ => some c) inp.userMessage inp.engine with
  | .ok (_, c2, _) => c2
  | .error _ => c

/-- Cache entry after a sequence of `next` calls on one session. -/
def runNexts (rules : InterviewRules) (maxIntroQuestions : Nat) (cfg : String)
    (c : CachedData) (inputs : List CallInput) : CachedData :=
  inputs.foldl (stepCache rules maxIntroQuestions cfg) c

/- ===================== Theorems ===================== -/

/-- C8: the phase router is a pure total function mapping "reporting",
"introduction", "q&a" and "evaluation" to their nodes and every other value,
including an absent phase, to the perception node. -/
theorem C8_phase_router_total (p : Option String) :
    phase_router_function (some "reporting") = "reporting_node"
  ∧ phase_router_function (some "introduction") = "candidate_information_collection_node"
  ∧ phase_router_function (some "q&a") = "answer_collection_node"
  ∧ phase_router_function (some "evaluation") = "evaluation_node"
  ∧ phase_router_function none = "perception_node"
  ∧ (p ≠ some "reporting" → p ≠ some "introduction" → p ≠ some "q&a" →
      p ≠ some "evaluation" → phase_router_function p = "perception_node") := by
  refine ⟨rfl, rfl, rfl, rfl, rfl, ?_⟩
  intro h1 h2 h3 h4
  simp [phase_router_function, h1, h2, h3, h4]

/-- Witness for C8 at the phase value "unknown". -/
theorem C8_phase_router_total_witness :
    phase_router_function (some "unknown") = "perception_node"
  ∧ phase_router_function (some "reporting") = "reporting_node" := by
  have h := C8_phase_router_total (some "unknown")
  exact ⟨h.2.2.2.2.2 (by decide) (by decide) (by decide) (by decide), h.1⟩

/-- C5: for every candidate_information mapping, the collection node (invoked
with any non-"reporting" phase, in particular "introduction" as routed)
prompts for name exactly when name is absent, for role exactly when name is
present and role absent, for companies exactly when name and role are present
and companies absent, and sets phase "execution" exactly on the call that
fills companies, leaving "introduction" otherwise. -/
theorem C5_candidate_info_sequential (phase : String) (info : CandidateInfo)
    (resume : String) (hph : phase ≠ "reporting") :
    ((candidate_information_collection_function phase info resume).issued
        = some "Please enter your full name" ↔ info.name = none)
  ∧ ((candidate_information_collection_function phase info resume).issued
        = some "Job role you want to interview for" ↔
      info.name ≠ none ∧ info.role = none)
  ∧ ((candidate_information_collection_function phase info resume).issued
        = some "Please enter comma separated names of companies you prefer" ↔
      info.name ≠ none ∧ info.role ≠ none ∧ info.companies = none)
  ∧ ((candidate_information_collection_function phase info resume).phase
        = "execution" ↔
      info.name ≠ none ∧ info.role ≠ none ∧ info.companies = none)
  ∧ ((candidate_information_collection_function phase info resume).phase
        = "execution"
     ∨ (candidate_information_collection_function phase info resume).phase
        = "introduction") := by
  obtain ⟨n, ro, co⟩ := info
  simp only [candidate_information_collection_function, if_neg hph]
  cases n <;> cases ro <;> cases co <;> simp

/-- Witness for C5: with name and role present and companies absent, the node
prompts for companies and moves to the execution phase. -/
theorem C5_candidate_info_sequential_witness :
    ((candidate_information_collection_function "introduction"
        ⟨some "Ada", some "Engineer", none⟩ "Acme").issued
      = some "Please enter your full name"
      ↔ (⟨some "Ada", some "Engineer", none⟩ : CandidateInfo).name = none)
  ∧ ((candidate_information_collection_function "introduction"
        ⟨some "Ada", some "Engineer", none⟩ "Acme").phase = "execution" ↔
      (⟨some "Ada", some "Engineer", none⟩ : CandidateInfo).name ≠ none
      ∧ (⟨some "Ada", some "Engineer", none⟩ : CandidateInfo).role ≠ none
      ∧ (⟨some "Ada", some "Engineer", none⟩ : CandidateInfo).companies = none) := by
  have h := C5_candidate_info_sequential "introduction"
    ⟨some "Ada", some "Engineer", none⟩ "Acme" (by decide)
  exact ⟨h.1, h.2.2.2.1⟩

/-- C1: when `len(answers) < len(questions)`, resuming the answer_collection
node appends exactly one question/answer entry, the new length stays at most
`len(questions)`, and the phase is "evaluation" exactly when the new length
equals `len(questions)` and "q&a" otherwise. -/
theorem C1_answer_collection_append (questions : List QuestionItem)
    (answers : List AnswerItem) (resume : String)
    (h : answers.length < questions.length) :
    ∃ r, answer_collection_function questions answers resume = some r
      ∧ r.answers
          = answers ++ [⟨(questions.get ⟨answers.length, h⟩).question, resume⟩]
      ∧ r.answers.length = answers.length + 1
      ∧ r.answers.length ≤ questions.length
      ∧ (r.phase = "evaluation" ↔ r.answers.length = questions.length)
      ∧ (r.phase = "q&a" ↔ r.answers.length ≠ questions.length) := by
  unfold answer_collection_function
  rw [dif_pos h]
  by_cases h2 : answers.length + 1 < questions.length
  · rw [if_pos h2]
    exact ⟨_, rfl, rfl, by simp, by simp; omega,
      iff_of_false (by simp) (by simp; omega),
      iff_of_true rfl (by simp; omega)⟩
  · rw [if_neg h2]
    exact ⟨_, rfl, rfl, by simp, by simp; omega,
      iff_of_true rfl (by simp; omega),
      iff_of_false (by simp) (by simp; omega)⟩

/-- Witness for C1: one question, no answers yet; the resume appends the
single answer and the phase becomes "evaluation". -/
theorem C1_answer_collection_append_witness :
    ∃ r, answer_collection_function [⟨"Q1", "Theory", "Acme"⟩] [] "42" = some r
      ∧ r.answers = [⟨"Q1", "42"⟩]
      ∧ r.answers.length = 1
      ∧ r.answers.length ≤ 1
      ∧ (r.phase = "evaluation" ↔ r.answers.length = 1)
      ∧ (r.phase = "q&a" ↔ r.answers.length ≠ 1) := by
  obtain ⟨r, h1, h2, h3, h4, h5, h6⟩ :=
    C1_answer_collection_append [⟨"Q1", "Theory", "Acme"⟩] [] "42" (by decide)
  exact ⟨r, h1, by simpa using h2, h3, h4, h5, h6⟩

/-- C6 (code evaluated at the failing input): on the resume that supplies the
answer to the last remaining question, the message appended to history
carries the pre-resume answer list (here the empty list), not the full list
including the answer just supplied (which ends up only in `answers`). -/
theorem C6_history_message_uses_stale_answers :
    answer_collection_function [⟨"Q1", "Theory", "Acme"⟩] [] "my answer"
      = some ⟨⟨"Q1", "Theory", "Acme"⟩, [Msg.humanAnswers []],
          [⟨"Q1", "my answer"⟩], "evaluation"⟩ := by
  rfl

/-- Helper: a `next` call on a session below the ceiling whose pending
message is an interrupt makes exactly one engine call, a resume carrying the
expiry-checked user message. -/
theorem next_interrupt_calls (rules : InterviewRules) (mi : Nat) (now lu : Int)
    (text um cfg : String) (cnt : Nat) (engine : EngineCall → EngineResponse)
    (hcnt : cnt < maxQuestionsOf rules mi) :
    engineCallsOf (InterviewClient.next rules mi now (some cfg)
      (fun _ => some ⟨text, .interrupt, lu, cnt⟩) um engine)
    = [.resume (check_answer_expiry rules now um lu)] := by
  unfold InterviewClient.next load_cache
  dsimp only
  rw [if_neg (not_le.mpr hcnt)]
  split <;> rfl

/-- Helper: a `next` call on a session at or above the turn ceiling returns
the end-sentinel with the cache entry unchanged and no engine call. -/
theorem next_at_ceiling (rules : InterviewRules) (mi : Nat) (now : Int)
    (cfg um : String) (cached : CachedData)
    (engine : EngineCall → EngineResponse)
    (h : maxQuestionsOf rules mi ≤ cached.count) :
    InterviewClient.next rules mi now (some cfg) (fun _ => some cached)
      um engine = .ok (.endSentinel, cached, []) := by
  unfold InterviewClient.next load_cache
  dsimp only
  rw [if_pos h]

/-- C2: once the cached turn count is at least `max_allowed_turns`
(`no_of_questions` default 10, plus the intro-question count), every `next`
call returns the end-sentinel with no engine call, and the cache entry is
unchanged, so the same holds on every subsequent call. -/
theorem C2_turn_ceiling_end_sentinel (rules : InterviewRules) (mi : Nat)
    (cfg : String) (cached : CachedData)
    (h : maxQuestionsOf rules mi ≤ cached.count) :
    (∀ inp : CallInput,
      InterviewClient.next rules mi inp.now (some cfg) (fun _ => some cached)
        inp.userMessage inp.engine = .ok (.endSentinel, cached, []))
  ∧ (∀ inputs : List CallInput, runNexts rules mi cfg cached inputs = cached) := by
  have hstep : ∀ inp : CallInput,
      InterviewClient.next rules mi inp.now (some cfg) (fun _ => some cached)
        inp.userMessage inp.engine = .ok (.endSentinel, cached, []) :=
    fun inp => next_at_ceiling rules mi inp.now cfg inp.userMessage cached inp.engine h
  refine ⟨hstep, ?_⟩
  intro inputs
  induction inputs with
  | nil => rfl
  | cons a tl ih =>
      have ha : stepCache rules mi cfg cached a = cached := by
        simp [stepCache, hstep a]
      simpa [runNexts, List.foldl_cons, ha] using ih

/-- Witness for C2 with a one-question ruleset, three intro questions and a
cached count of 4 = 1 + 3. -/
theorem C2_turn_ceiling_end_sentinel_witness :
    InterviewClient.next ⟨some 1, some 1⟩ 3 100 (some "tid")
        (fun _ => some ⟨"done", .text, 0, 4⟩) "msg" (fun _ => .textResp "t")
      = .ok (.endSentinel, ⟨"done", .text, 0, 4⟩, [])
  ∧ runNexts ⟨some 1, some 1⟩ 3 "tid" ⟨"done", .text, 0, 4⟩
      [⟨100, "msg", fun _ => .textResp "t"⟩] = ⟨"done", .text, 0, 4⟩ := by
  have h := C2_turn_ceiling_end_sentinel ⟨some 1, some 1⟩ 3 "tid"
    ⟨"done", .text, 0, 4⟩ (by decide)
  exact ⟨h.1 ⟨100, "msg", fun _ => .textResp "t"⟩,
    h.2 [⟨100, "msg", fun _ => .textResp "t"⟩]⟩

/-- Helper: below the ceiling, one `next` call increments the cached count by
exactly one. -/
theorem stepCache_count_incr (rules : InterviewRules) (mi : Nat) (cfg : String)
    (c : CachedData) (inp : CallInput) (h : c.count < maxQuestionsOf rules mi) :
    (stepCache rules mi cfg c inp).count = c.count + 1 := by
  unfold stepCache InterviewClient.next load_cache
  dsimp only
  rw [if_neg (not_le.mpr h)]
  by_cases hf : maxQuestionsOf rules mi ≤ c.count + 1
  · rw [if_pos hf]
  · rw [if_neg hf]

/-- Helper: the cached count after a run of `next` calls that stays within
the ceiling is the starting count plus the number of calls. -/
theorem runNexts_count (rules : InterviewRules) (mi : Nat) (cfg : String) :
    ∀ (inputs : List CallInput) (c : CachedData),
    c.count + inputs.length ≤ maxQuestionsOf rules mi →
    (runNexts rules mi cfg c inputs).count = c.count + inputs.length := by
  intro inputs
  induction inputs with
  | nil => intro c _; rfl
  | cons a tl ih =>
      intro c hc
      simp only [List.length_cons] at hc
      have h1 : c.count < maxQuestionsOf rules mi := by omega
      have h2 := stepCache_count_incr rules mi cfg c a h1
      have h3 := ih (stepCache rules mi cfg c a) (by rw [h2]; omega)
      simp only [runNexts, List.foldl_cons, List.length_cons] at h3 ⊢
      rw [h3, h2]
      omega

/-- C3: after `start` the stored count is 0, and after `k` completed `next`
calls (each of which increments the count by exactly one while below the
ceiling) the stored count equals exactly `k`. -/
theorem C3_turn_count_exact (now : Int) (iv : String) (rules : InterviewRules)
    (mi : Nat) (cfg : String) (inputs : List CallInput)
    (h : inputs.length ≤ maxQuestionsOf rules mi) :
    (InterviewClient.start now iv).count = 0
  ∧ (runNexts rules mi cfg (InterviewClient.start now iv) inputs).count
      = inputs.length
  ∧ (∀ (c : CachedData) (inp : CallInput), c.count < maxQuestionsOf rules mi →
      (stepCache rules mi cfg c inp).count = c.count + 1) := by
  refine ⟨rfl, ?_, fun c inp hc => stepCache_count_incr rules mi cfg c inp hc⟩
  have h2 := runNexts_count rules mi cfg inputs (InterviewClient.start now iv)
    (by simpa [InterviewClient.start] using h)
  simpa [InterviewClient.start] using h2

/-- Witness for C3: two completed calls after `start` leave count 2 under a
2-question ruleset with 3 intro questions. -/
theorem C3_turn_count_exact_witness :
    (InterviewClient.start 0 "name?").count = 0
  ∧ (runNexts ⟨some 1, some 2⟩ 3 "tid" (InterviewClient.start 0 "name?")
      [⟨10, "Ada", fun _ => .interruptResp "role?"⟩,
       ⟨20, "Engineer", fun _ => .interruptResp "companies?"⟩]).count = 2
  ∧ (stepCache ⟨some 1, some 2⟩ 3 "tid" (InterviewClient.start 0 "name?")
      ⟨10, "Ada", fun _ => .interruptResp "role?"⟩).count
      = (InterviewClient.start 0 "name?").count + 1 := by
  have h := C3_turn_count_exact 0 "name?" ⟨some 1, some 2⟩ 3 "tid"
    [⟨10, "Ada", fun _ => .interruptResp "role?"⟩,
     ⟨20, "Engineer", fun _ => .interruptResp "companies?"⟩] (by decide)
  exact ⟨h.1, h.2.1, h.2.2 _ _ (by decide)⟩

/-- C4 counterexample: with `time_frame = 1` minute, a `next` call arriving
exactly at `last_activity_at + 65` seconds (here `now = 65`, `last_updated =
0`) does NOT discard the supplied message: the engine is resumed with
"kept answer", not with the empty string, contrary to the claim's "+65
seconds or later discards". -/
theorem C4_expiry_at_65s_counterexample :
    InterviewClient.next ⟨some 1, some 1⟩ 3 65 (some "tid")
        (fun _ => some ⟨"Q", .interrupt, 0, 1⟩) "kept answer"
        (fun _ => .interruptResp "next question")
      = .ok (.message "next question", ⟨"next question", .interrupt, 65, 2⟩,
          [.resume "kept answer"])
  ∧ (([EngineCall.resume "kept answer"] : List EngineCall)
      = [EngineCall.resume ""]) = False := by
  exact ⟨rfl, eq_false (by decide)⟩

/-- C4 amended: with `time_frame = 1` minute and a pending interrupt below
the turn ceiling, a `next` call arriving strictly later than
`last_activity_at + 65` seconds resumes the engine with the empty string in
place of the supplied message, while a call arriving at
`last_activity_at + 65` seconds or earlier (in particular at `+64`) resumes
with the supplied message unchanged. -/
theorem C4_expiry_strict_after_65s (noq : Option Nat) (mi : Nat)
    (now lastUpdated : Int) (text um cfg : String) (cnt : Nat)
    (engine : EngineCall → EngineResponse)
    (hcnt : cnt < maxQuestionsOf ⟨some 1, noq⟩ mi) :
    (lastUpdated + 65 < now →
      engineCallsOf (InterviewClient.next ⟨some 1, noq⟩ mi now (some cfg)
        (fun _ => some ⟨text, .interrupt, lastUpdated, cnt⟩) um engine)
      = [.resume ""])
  ∧ (now ≤ lastUpdated + 65 →
      engineCallsOf (InterviewClient.next ⟨some 1, noq⟩ mi now (some cfg)
        (fun _ => some ⟨text, .interrupt, lastUpdated, cnt⟩) um engine)
      = [.resume um]) := by
  have hc := next_interrupt_calls ⟨some 1, noq⟩ mi now lastUpdated text um cfg
    cnt engine hcnt
  constructor
  · intro hlt
    rw [hc]
    have : check_answer_expiry ⟨some 1, noq⟩ now um lastUpdated = "" := by
      unfold check_answer_expiry
      rw [if_pos (by simp only [Option.getD_some]; omega)]
    rw [this]
  · intro hle
    rw [hc]
    have : check_answer_expiry ⟨some 1, noq⟩ now um lastUpdated = um := by
      unfold check_answer_expiry
      rw [if_neg (by simp only [Option.getD_some]; omega)]
    rw [this]

/-- Witness for C4 amended: at `+66` seconds the engine is resumed with the
empty string; at `+64` seconds it is resumed with the supplied message. -/
theorem C4_expiry_strict_after_65s_witness :
    engineCallsOf (InterviewClient.next ⟨some 1, some 1⟩ 3 66 (some "tid")
      (fun _ => some ⟨"Q", .interrupt, 0, 1⟩) "late answer"
      (fun _ => .interruptResp "next"))
      = [.resume ""]
  ∧ engineCallsOf (InterviewClient.next ⟨some 1, some 1⟩ 3 64 (some "tid")
      (fun _ => some ⟨"Q", .interrupt, 0, 1⟩) "timely answer"
      (fun _ => .interruptResp "next"))
      = [.resume "timely answer"] := by
  exact ⟨(C4_expiry_strict_after_65s (some 1) 3 66 0 "Q" "late answer" "tid" 1
      (fun _ => .interruptResp "next") (by decide)).1 (by decide),
    (C4_expiry_strict_after_65s (some 1) 3 64 0 "Q" "timely answer" "tid" 1
      (fun _ => .interruptResp "next") (by decide)).2 (by decide)⟩

/-- C10: when the rules have no `time_frame` key, `rules.get("time_frame", 0)`
makes the allowance 0 minutes, so an awaiting-input `next` call arriving
strictly more than 5 seconds after `last_updated` resumes the engine with the
empty string in place of the supplied message (and within 5 seconds it
resumes the message unchanged). -/
theorem C10_absent_time_frame_is_zero (noq : Option Nat) (mi : Nat)
    (now lastUpdated : Int) (text um cfg : String) (cnt : Nat)
    (engine : EngineCall → EngineResponse)
    (hcnt : cnt < maxQuestionsOf ⟨none, noq⟩ mi) :
    (lastUpdated + 5 < now →
      engineCallsOf (InterviewClient.next ⟨none, noq⟩ mi now (some cfg)
        (fun _ => some ⟨text, .interrupt, lastUpdated, cnt⟩) um engine)
      = [.resume ""])
  ∧ (now ≤ lastUpdated + 5 →
      engineCallsOf (InterviewClient.next ⟨none, noq⟩ mi now (some cfg)
        (fun _ => some ⟨text, .interrupt, lastUpdated, cnt⟩) um engine)
      = [.resume um]) := by
  have hc := next_interrupt_calls ⟨none, noq⟩ mi now lastUpdated text um cfg
    cnt engine hcnt
  constructor
  · intro hlt
    rw [hc]
    have : check_answer_expiry ⟨none, noq⟩ now um lastUpdated = "" := by
      unfold check_answer_expiry
      rw [if_pos (by simp only [Option.getD_none]; omega)]
    rw [this]
  · intro hle
    rw [hc]
    have : check_answer_expiry ⟨none, noq⟩ now um lastUpdated = um := by
      unfold check_answer_expiry
      rw [if_neg (by simp only [Option.getD_none]; omega)]
    rw [this]

/-- Witness for C10: with no `time_frame` key, at `+6` seconds the empty
string is resumed; at `+5` seconds the supplied message is resumed. -/
theorem C10_absent_time_frame_is_zero_witness :
    engineCallsOf (InterviewClient.next ⟨none, some 1⟩ 3 6 (some "tid")
      (fun _ => some ⟨"Q", .interrupt, 0, 1⟩) "late answer"
      (fun _ => .interruptResp "next"))
      = [.resume ""]
  ∧ engineCallsOf (InterviewClient.next ⟨none, some 1⟩ 3 5 (some "tid")
      (fun _ => some ⟨"Q", .interrupt, 0, 1⟩) "timely answer"
      (fun _ => .interruptResp "next"))
      = [.resume "timely answer"] := by
  exact ⟨(C10_absent_time_frame_is_zero (some 1) 3 6 0 "Q" "late answer" "tid" 1
      (fun _ => .interruptResp "next") (by decide)).1 (by decide),
    (C10_absent_time_frame_is_zero (some 1) 3 5 0 "Q" "timely answer" "tid" 1
      (fun _ => .interruptResp "next") (by decide)).2 (by decide)⟩

/-- C9: a `next` or `end` call with an absent session handle fails with the
`ValueError` raised on a falsy `interview_config`, and with an unknown
session id fails with InvalidSession (from the spec-modelled `load_cache`);
in every case the call fails rather than proceeding. -/
theorem C9_absent_or_unknown_session_fails (rules : InterviewRules) (mi : Nat)
    (now : Int) (um cfgId : String) (engine : EngineCall → EngineResponse)
    (lookup : String → Option CachedData) (ops : List String)
    (hunknown : lookup cfgId = none) :
    InterviewClient.next rules mi now none lookup um engine
        = .error .valueErrorConfigRequired
  ∧ InterviewClient.end none lookup ops = .error .valueErrorConfigRequired
  ∧ InterviewClient.next rules mi now (some cfgId) lookup um engine
        = .error .invalidSession
  ∧ InterviewClient.end (some cfgId) lookup ops = .error .invalidSession := by
  refine ⟨rfl, rfl, ?_, ?_⟩
  · unfold InterviewClient.next load_cache
    dsimp only
    rw [hunknown]
  · unfold InterviewClient.end load_cache
    dsimp only
    rw [hunknown]

/-- Witness for C9 with an empty session store. -/
theorem C9_absent_or_unknown_session_fails_witness :
    InterviewClient.next ⟨some 1, some 1⟩ 3 0 none (fun _ => none) "m"
        (fun _ => .textResp "t")
        = .error .valueErrorConfigRequired
  ∧ InterviewClient.end none (fun _ => none) [] = .error .valueErrorConfigRequired
  ∧ InterviewClient.next ⟨some 1, some 1⟩ 3 0 (some "ghost") (fun _ => none) "m"
        (fun _ => .textResp "t")
        = .error .invalidSession
  ∧ InterviewClient.end (some "ghost") (fun _ => none) [] = .error .invalidSession :=
  C9_absent_or_unknown_session_fails ⟨some 1, some 1⟩ 3 0 "m" "ghost"
    (fun _ => .textResp "t") (fun _ => none) [] rfl

/- lastN lemmas -/

theorem lastN_zero (l : List α) : lastN 0 l = [] := by
  simp [lastN]

theorem lastN_of_le (l : List α) (n : Nat) (h : l.length ≤ n) : lastN n l = l := by
  simp [lastN, Nat.sub_eq_zero_of_le h]

theorem length_lastN (l : List α) (n : Nat) : (lastN n l).length = min n l.length := by
  simp [lastN, List.length_drop]
  omega

theorem lastN_length_le (l : List α) (n : Nat) : (lastN n l).length ≤ n := by
  rw [length_lastN]
  omega

theorem lastN_suffix (l : List α) (n : Nat) : lastN n l <:+ l :=
  List.drop_suffix _ _

theorem lastN_append_singleton (l : List α) (a : α) (n : Nat) :
    lastN (n + 1) (l ++ [a]) = lastN n l ++ [a] := by
  unfold lastN
  rw [List.length_append]
  simp only [List.length_singleton]
  rw [List.drop_append_of_le_length (by omega)]
  have h : l.length + 1 - (n + 1) = l.length - n := by omega
  rw [h]

theorem lastN_append_of_le (l₁ l₂ : List α) (n : Nat) (h : n ≤ l₂.length) :
    lastN n (l₁ ++ l₂) = lastN n l₂ := by
  unfold lastN
  rw [List.length_append]
  have h2 : l₁.length + l₂.length - n = l₁.length + (l₂.length - n) := by omega
  rw [h2, List.drop_append]

theorem lastN_take_drop (l : List α) (n : Nat) :
    l = l.take (l.length - n) ++ lastN n l :=
  (List.take_append_drop _ l).symm

theorem lastN_pred (l : List α) (M : Nat) (h : l.length = M + 1) :
    lastN M l = l.drop 1 := by
  unfold lastN
  rw [h]
  have h2 : M + 1 - M = 1 := by omega
  rw [h2]

/- filter and map helpers -/

theorem map_fst_filter (l : List (K × V)) (p : K → Bool) :
    (l.filter (fun q => p q.1)).map Prod.fst = (l.map Prod.fst).filter p := by
  induction l with
  | nil => rfl
  | cons a tl ih =>
      rcases a with ⟨x, y⟩
      by_cases h : p x <;> simp [List.filter_cons, h, ih]

theorem filter_ne_of_not_mem (l : List K) (k : K) (h : k ∉ l) :
    l.filter (fun x => x ≠ k) = l := by
  apply List.filter_eq_self.mpr
  intro b hb
  simp only [decide_eq_true_eq]
  exact fun hbk => h (hbk ▸ hb)

theorem length_filter_ne_of_nodup (l : List K) (k : K) (d : l.Nodup)
    (h : k ∈ l) : (l.filter (fun x => x ≠ k)).length = l.length - 1 := by
  induction l with
  | nil => cases h
  | cons a tl ih =>
      rw [List.nodup_cons] at d
      by_cases hak : a = k
      · subst hak
        rw [List.filter_cons_of_neg (by simp)]
        rw [filter_ne_of_not_mem tl a d.1]
        simp
      · have hk : k ∈ tl := by
          rcases List.mem_cons.mp h with h1 | h1
          · exact absurd h1.symm hak
          · exact h1
        rw [List.filter_cons_of_pos (by simpa using hak)]
        rw [List.length_cons, ih d.2 hk]
        have h1 : 1 ≤ tl.length := List.length_pos.mpr (List.ne_nil_of_mem hk)
        simp only [List.length_cons]
        omega

theorem touch_nodup (g : List K) (k : K) (d : g.Nodup) :
    (g.filter (fun x => x ≠ k) ++ [k]).Nodup := by
  apply List.Nodup.append (d.filter _) (List.nodup_singleton k)
  intro a ha hb
  simp only [List.mem_singleton] at hb
  subst hb
  have := List.of_mem_filter ha
  simp only [decide_eq_true_eq] at this
  exact this rfl

/- the central ghost-step lemma for a touched key that is present -/

theorem lastN_touch_mem (g : List K) (N : Nat) (k : K) (hg : g.Nodup)
    (hkmem : k ∈ lastN N g) :
    (lastN N g).filter (fun x => x ≠ k) ++ [k]
      = lastN N (g.filter (fun x => x ≠ k) ++ [k]) := by
  rcases N with _ | M
  · rw [lastN_zero] at hkmem
    cases hkmem
  · rw [lastN_append_singleton]
    have hnd : (lastN (M + 1) g).Nodup := ((lastN_suffix g (M + 1)).sublist).nodup hg
    by_cases hlen : g.length ≤ M + 1
    · have hkeq : lastN (M + 1) g = g := lastN_of_le g (M + 1) hlen
      rw [hkeq] at hkmem ⊢
      have hflen : (g.filter (fun x => x ≠ k)).length = g.length - 1 :=
        length_filter_ne_of_nodup g k hg hkmem
      rw [lastN_of_le _ M (by omega)]
    · -- N < g.length ; split g into a prelude and its last N elements
      have hsplit := lastN_take_drop g (M + 1)
      have hflen : ((lastN (M + 1) g).filter (fun x => x ≠ k)).length
          = (lastN (M + 1) g).length - 1 :=
        length_filter_ne_of_nodup _ k hnd hkmem
      have hklen : (lastN (M + 1) g).length = M + 1 := by
        rw [length_lastN]
        omega
      conv_rhs => rw [hsplit]
      rw [List.filter_append, lastN_append_of_le _ _ M (by omega),
        lastN_of_le _ M (by omega)]

/- implementation step lemmas -/

theorem set_maxsize (c : SimpleCache K V) (k : K) (v : V) :
    (c.set k v).maxsize = c.maxsize := by
  unfold SimpleCache.set
  dsimp only
  split <;> rfl

theorem get_maxsize (c : SimpleCache K V) (k : K) :
    ((c.get k).2).maxsize = c.maxsize := by
  unfold SimpleCache.get
  cases hf : c.entries.find? (fun p => p.1 = k) <;> rfl

theorem set_step (c : SimpleCache K V) (g : List K) (k : K) (v : V)
    (hk : c.entries.map Prod.fst = lastN c.maxsize g) (hg : g.Nodup) :
    (c.set k v).entries.map Prod.fst
      = lastN c.maxsize (g.filter (fun x => x ≠ k) ++ [k]) := by
  have hmap : (c.entries.filter (fun q => q.1 ≠ k)).map Prod.fst
      = (c.entries.map Prod.fst).filter (fun x => x ≠ k) :=
    map_fst_filter c.entries (fun x => decide (x ≠ k))
  have hflen : (c.entries.filter (fun q => q.1 ≠ k)).length
      = ((c.entries.map Prod.fst).filter (fun x => x ≠ k)).length := by
    rw [← hmap, List.length_map]
  have hkeyslen : (c.entries.map Prod.fst).length ≤ c.maxsize := by
    rw [hk]
    exact lastN_length_le g c.maxsize
  have hknd : (c.entries.map Prod.fst).Nodup := by
    rw [hk]
    exact ((lastN_suffix g c.maxsize).sublist).nodup hg
  unfold SimpleCache.set
  dsimp only
  by_cases hkmem : k ∈ c.entries.map Prod.fst
  · -- present key: replace, no eviction
    have hlen2 : ((c.entries.map Prod.fst).filter (fun x => x ≠ k)).length
        = (c.entries.map Prod.fst).length - 1 :=
      length_filter_ne_of_nodup _ k hknd hkmem
    have hpos : 0 < (c.entries.map Prod.fst).length :=
      List.length_pos.mpr (List.ne_nil_of_mem hkmem)
    rw [if_neg (by simp only [List.length_append, List.length_singleton]; omega)]
    rw [List.map_append, hmap]
    simp only [List.map_cons, List.map_nil]
    rw [hk] at hkmem ⊢
    exact lastN_touch_mem g c.maxsize k hg hkmem
  · -- absent key
    have hfe : (c.entries.map Prod.fst).filter (fun x => x ≠ k)
        = c.entries.map Prod.fst := filter_ne_of_not_mem _ k hkmem
    by_cases hfull : (c.entries.map Prod.fst).length = c.maxsize
    · -- at capacity: eviction
      rcases hN : c.maxsize with _ | M
      · -- capacity zero
        rw [hN] at hfull hk
        have he : c.entries = [] :=
          List.map_eq_nil_iff.mp (by rw [hk, lastN_zero])
        rw [if_pos (by simp [he])]
        simp [he, lastN_zero]
      · rw [hN] at hfull hk
        rw [if_pos (by simp only [List.length_append, List.length_singleton, hflen, hfe]; omega)]
        rw [List.map_drop, List.map_append, hmap, hfe]
        simp only [List.map_cons, List.map_nil]
        rw [lastN_append_singleton]
        rw [List.drop_append_of_le_length (by omega)]
        have hkm : k ∉ lastN (M + 1) g := by
          rw [← hk]
          exact hkmem
        conv_rhs => rw [lastN_take_drop g (M + 1)]
        rw [List.filter_append, filter_ne_of_not_mem _ k hkm,
          lastN_append_of_le _ _ M (by rw [← hk, hfull]; omega)]
        rw [lastN_pred (lastN (M + 1) g) M (by rw [← hk]; exact hfull)]
        rw [hk]
    · -- below capacity: plain append, no eviction
      have hlt : (c.entries.map Prod.fst).length < c.maxsize := by omega
      rw [if_neg (by simp only [List.length_append, List.length_singleton, hflen, hfe]; omega)]
      rw [List.map_append, hmap, hfe]
      simp only [List.map_cons, List.map_nil]
      have hglen : g.length < c.maxsize := by
        have h3 := length_lastN g c.maxsize
        rw [← hk] at h3
        omega
      rcases hN : c.maxsize with _ | M
      · omega
      · rw [hN] at hk hglen
        rw [lastN_append_singleton]
        rw [hk, lastN_of_le g (M + 1) (by omega)] at hkmem ⊢
        rw [filter_ne_of_not_mem g k hkmem]
        rw [lastN_of_le g M (by omega)]

theorem get_step (c : SimpleCache K V) (g : List K) (k : K)
    (hk : c.entries.map Prod.fst = lastN c.maxsize g) (hg : g.Nodup) :
    ((c.get k).2).entries.map Prod.fst
      = lastN c.maxsize (touchStep c.maxsize g (CacheOp.get k : CacheOp K V)) := by
  unfold SimpleCache.get
  simp only [touchStep]
  cases hf : c.entries.find? (fun p => p.1 = k) with
  | none =>
      have hnot : k ∉ c.entries.map Prod.fst := by
        intro hmem
        rcases List.mem_map.mp hmem with ⟨pr, hpr, hprk⟩
        have := List.find?_eq_none.mp hf pr hpr
        simp only [decide_eq_true_eq] at this
        exact this hprk
      rw [if_neg (by rw [← hk]; exact hnot)]
      exact hk
  | some pr =>
      have hpk : pr.1 = k := by
        have := List.find?_some hf
        simpa using this
      have hmem : pr ∈ c.entries := List.mem_of_find?_eq_some hf
      have hkmem : k ∈ c.entries.map Prod.fst := by
        rw [← hpk]
        exact List.mem_map_of_mem Prod.fst hmem
      rw [if_pos (by rw [← hk]; exact hkmem)]
      dsimp only
      rw [List.map_append, map_fst_filter c.entries (fun x => decide (x ≠ k))]
      simp only [List.map_cons, List.map_nil]
      rw [hk] at hkmem ⊢
      exact lastN_touch_mem g c.maxsize k hg hkmem

theorem touchStep_nodup (N : Nat) (g : List K) (op : CacheOp K V)
    (hg : g.Nodup) : (touchStep N g op).Nodup := by
  rcases op with k | ⟨k, v⟩
  · simp only [touchStep]
    split
    · exact touch_nodup g k hg
    · exact hg
  · exact touch_nodup g k hg

theorem runOps_inv (N : Nat) :
    ∀ (ops : List (CacheOp K V)) (c : SimpleCache K V) (g : List K),
    c.maxsize = N → c.entries.map Prod.fst = lastN N g → g.Nodup →
    (runOps c ops).maxsize = N
    ∧ (runOps c ops).entries.map Prod.fst = lastN N (ops.foldl (touchStep N) g)
    ∧ (ops.foldl (touchStep N) g).Nodup := by
  intro ops
  induction ops with
  | nil =>
      intro c g h1 h2 h3
      exact ⟨h1, h2, h3⟩
  | cons op tl ih =>
      intro c g h1 h2 h3
      have hstep : (applyOp c op).entries.map Prod.fst
          = lastN N (touchStep N g op) ∧ (applyOp c op).maxsize = N := by
        cases op with
        | set k v =>
            constructor
            · rw [← h1]
              exact set_step c g k v (by rw [h1]; exact h2) h3
            · show (SimpleCache.set c k v).maxsize = N
              rw [set_maxsize, h1]
        | get k =>
            constructor
            · rw [← h1]
              exact get_step c g k (by rw [h1]; exact h2) h3
            · show ((SimpleCache.get c k).2).maxsize = N
              rw [get_maxsize, h1]
      have hnd := touchStep_nodup N g op h3
      have := ih (applyOp c op) (touchStep N g op) hstep.2 hstep.1 hnd
      simpa [runOps, List.foldl_cons] using this

/-- C7: the LRU law for `SimpleCache`. For every sequence of get/set
operations from an empty cache of capacity `N`, the surviving keys (in
recency order) are exactly the at most `N` most-recently-touched keys of the
spec-side touch trace; `get` on an absent key returns absent with no side
effect, and `get` on a present key returns its entry and moves the key to the
most-recently-used end, preserving the capacity. -/
theorem C7_cache_lru_law (N : Nat) (ops : List (CacheOp K V))
    (c : SimpleCache K V) (k : K) :
    ((runOps (SimpleCache.empty K V N) ops).keys = lastN N (touchTrace N ops)
      ∧ (runOps (SimpleCache.empty K V N) ops).maxsize = N)
  ∧ (k ∉ c.keys → c.get k = (none, c))
  ∧ (k ∈ c.keys → ∃ v, (k, v) ∈ c.entries ∧ (c.get k).1 = some v
      ∧ ((c.get k).2).keys = c.keys.filter (fun x => x ≠ k) ++ [k]
      ∧ ((c.get k).2).maxsize = c.maxsize) := by
  refine ⟨?_, ?_, ?_⟩
  · have h := runOps_inv N ops (SimpleCache.empty K V N) [] rfl
      (by simp [SimpleCache.empty, lastN]) List.nodup_nil
    exact ⟨h.2.1, h.1⟩
  · intro h
    have hf : c.entries.find? (fun p => p.1 = k) = none := by
      apply List.find?_eq_none.mpr
      intro x hx
      simp only [decide_eq_true_eq]
      intro hxk
      exact h (by rw [← hxk]; exact List.mem_map_of_mem Prod.fst hx)
    unfold SimpleCache.get
    rw [hf]
  · intro h
    rcases List.mem_map.mp h with ⟨pr, hpr, hprk⟩
    have hs : (c.entries.find? (fun p => p.1 = k)).isSome := by
      rw [List.find?_isSome]
      exact ⟨pr, hpr, by simp [hprk]⟩
    obtain ⟨pr0, hf⟩ := Option.isSome_iff_exists.mp hs
    have hp0k : pr0.1 = k := by simpa using List.find?_some hf
    have hp0mem := List.mem_of_find?_eq_some hf
    refine ⟨pr0.2, ?_, ?_, ?_, ?_⟩
    · rw [← hp0k]
      exact hp0mem
    · unfold SimpleCache.get
      rw [hf]
    · unfold SimpleCache.keys SimpleCache.get
      rw [hf]
      dsimp only
      rw [List.map_append, map_fst_filter c.entries (fun x => decide (x ≠ k))]
      simp only [List.map_cons, List.map_nil]
    · unfold SimpleCache.get
      rw [hf]

/-- Witness for C7: after `[set 1, set 2, get 1, set 3]` at capacity 2 the
surviving keys are `[1, 3]`; a `get` of the evicted/absent key 5 is a no-op
returning absent, and a `get` of the present key 1 returns its value and
marks it most recently used. -/
theorem C7_cache_lru_law_witness :
    ((runOps (SimpleCache.empty Nat Nat 2) sampleOps).keys
        = lastN 2 (touchTrace 2 sampleOps)
      ∧ (runOps (SimpleCache.empty Nat Nat 2) sampleOps).keys = [1, 3]
      ∧ (runOps (SimpleCache.empty Nat Nat 2) sampleOps).maxsize = 2)
  ∧ (SimpleCache.get (⟨[(1, 10), (2, 20)], 2⟩ : SimpleCache Nat Nat) 5
      = (none, (⟨[(1, 10), (2, 20)], 2⟩ : SimpleCache Nat Nat)))
  ∧ (∃ v, ((1 : Nat), v) ∈ (⟨[(1, 10), (2, 20)], 2⟩ : SimpleCache Nat Nat).entries
      ∧ (SimpleCache.get (⟨[(1, 10), (2, 20)], 2⟩ : SimpleCache Nat Nat) 1).1 = some v
      ∧ ((SimpleCache.get (⟨[(1, 10), (2, 20)], 2⟩ : SimpleCache Nat Nat) 1).2).keys
          = (⟨[(1, 10), (2, 20)], 2⟩ : SimpleCache Nat Nat).keys.filter (fun x => x ≠ 1) ++ [1]
      ∧ ((SimpleCache.get (⟨[(1, 10), (2, 20)], 2⟩ : SimpleCache Nat Nat) 1).2).maxsize
          = (⟨[(1, 10), (2, 20)], 2⟩ : SimpleCache Nat Nat).maxsize) := by
  have h1 := @C7_cache_lru_law Nat Nat _ 2 sampleOps ⟨[(1, 10), (2, 20)], 2⟩ 5
  have h2 := @C7_cache_lru_law Nat Nat _ 2 sampleOps ⟨[(1, 10), (2, 20)], 2⟩ 1
  exact ⟨⟨h1.1.1, by decide, h1.1.2⟩, h1.2.1 (by decide), h2.2.2 (by decide)⟩

end InterviewAI
